import Mathlib

/-!
Verification of the bounded in-memory LRU cache with per-entry TTL from
`cache.go` (package main), together with a model of the hand-rolled
doubly-linked list of the second in-memory variant.

Shallow embedding conventions:
* `time.Time` and `time.Duration` are both modelled as `Int` (an absolute
  instant, respectively a signed duration); `time.Now()` is threaded through
  every operation as an explicit `now : Int` argument, and the stored
  expiration is the absolute instant `now + ttl`.
* A `*list.Element` pointer is modelled as a natural-number address `Nat`;
  the memory holding the `entry` structs that the elements carry is an
  association list from addresses to entries (`heap`), and writing through a
  pointer is a shadowing write at the front of that list.
* The Go map `map[string]*list.Element` is the association list `cache`;
  `container/list` is Go's standard library, so the sequence of elements of
  `lruList` (front first) is modelled as the list of their addresses.
* Functions returning `error` are modelled with `Except String`; the only
  error value produced by the cache is the string of
  `fmt.Errorf("key not found")`.
-/

/-- An `entry` of `cache.go`: key, opaque value, and the absolute expiration
instant stored in the field named `ttl` (`time.Now().Add(ttl)` at write time). -/
structure Entry (V : Type) where
  key : String
  value : V
  ttl : Int
  deriving Repr, DecidableEq

instance (V : Type) [Inhabited V] : Inhabited (Entry V) where
  default := ⟨"", default, 0⟩

/-- The state of `InMemoryCache` from `cache.go`.  `cache` is the Go map from
key to element address, `lruList` the sequence of element addresses of the
`container/list` (front = most recently used), `heap` the memory holding the
`entry` struct at each allocated address, and `nextId` the next fresh
address. -/
structure InMemoryCache (V : Type) where
  maxSize : Int
  cache : List (String × Nat)
  lruList : List Nat
  heap : List (Nat × Entry V)
  nextId : Nat
  deriving Repr

/-- Go map lookup `c.cache[key]`: the first binding of the key, if any. -/
def mapFind (m : List (String × Nat)) (k : String) : Option Nat :=
  match m with
  | [] => none
  | (k', v) :: rest => if k' = k then some v else mapFind rest k

/-- Go map removal `delete(c.cache, key)`: drops every binding of the key. -/
def mapErase (m : List (String × Nat)) (k : String) : List (String × Nat) :=
  m.filter (fun p => ¬(p.1 = k))

/-- Memory read through an element pointer (`element.Value.(*entry)`).  The
address is always allocated in every reachable state, so the default entry is
never actually produced. -/
def heapGet {V : Type} [Inhabited V] (h : List (Nat × Entry V)) (i : Nat) : Entry V :=
  match h with
  | [] => default
  | (j, e) :: rest => if j = i then e else heapGet rest i

/-- Memory write through an element pointer: a shadowing binding at the front
of the memory association list. -/
def heapSet {V : Type} (h : List (Nat × Entry V)) (i : Nat) (e : Entry V) :
    List (Nat × Entry V) :=
  (i, e) :: h

/-- `container/list` `MoveToFront`: the element is moved to the front of the
sequence; a list not containing the element is left unchanged. -/
def listMoveToFront (l : List Nat) (i : Nat) : List Nat :=
  if i ∈ l then i :: l.erase i else l

namespace InMemoryCache

variable {V : Type} [Inhabited V]

/-- `NewInMemoryCache(maxSize)`: empty map, empty list. -/
def NewInMemoryCache (V : Type) (maxSize : Int) : InMemoryCache V :=
  { maxSize := maxSize, cache := [], lruList := [], heap := [], nextId := 0 }

/-- `removeElement` of `cache.go` (lines 132-136): removes the element from
the linked list and deletes its entry's key from the map. -/
def removeElement (c : InMemoryCache V) (i : Nat) : InMemoryCache V :=
  { c with
    lruList := c.lruList.erase i,
    cache := mapErase c.cache (heapGet c.heap i).key }

/-- `evict` of `cache.go` (lines 123-129): takes the back of the list and, if
it is non-nil, removes it. -/
def evict (c : InMemoryCache V) : InMemoryCache V :=
  match c.lruList.getLast? with
  | none => c
  | some i => removeElement c i

/-- `Set` of `cache.go` (lines 47-74).  Existing key: move its element to the
front and overwrite the entry's value and ttl through the pointer.  New key:
evict if `len(c.cache) >= c.maxSize`, then allocate the new entry, push its
element to the front and bind the key. -/
def Set (c : InMemoryCache V) (now : Int) (key : String) (value : V) (ttl : Int) :
    InMemoryCache V :=
  match mapFind c.cache key with
  | some i =>
      let l' := listMoveToFront c.lruList i
      let h1 := heapSet c.heap i { heapGet c.heap i with value := value }
      let h2 := heapSet h1 i { heapGet h1 i with ttl := now + ttl }
      { c with lruList := l', heap := h2 }
  | none =>
      let c1 := if (c.cache.length : Int) ≥ c.maxSize then c.evict else c
      let i := c1.nextId
      let newEntry : Entry V := { key := key, value := value, ttl := now + ttl }
      { c1 with
        heap := heapSet c1.heap i newEntry,
        lruList := i :: c1.lruList,
        cache := (key, i) :: c1.cache,
        nextId := i + 1 }

/-- `Get` of `cache.go` (lines 77-93): absent key fails; a present entry whose
`ttl` is after `now` is moved to the front and its value returned; a present
expired entry is removed and the call fails.  Both failures return the one
error `fmt.Errorf("key not found")`. -/
def Get (c : InMemoryCache V) (now : Int) (key : String) :
    Except String V × InMemoryCache V :=
  match mapFind c.cache key with
  | some i =>
      if now < (heapGet c.heap i).ttl then
        (Except.ok (heapGet c.heap i).value,
          { c with lruList := listMoveToFront c.lruList i })
      else
        (Except.error "key not found", removeElement c i)
  | none => (Except.error "key not found", c)

/-- `Delete` of `cache.go` (lines 96-106): a present key (expired or not) is
removed and the call succeeds; an absent key fails. -/
def Delete (c : InMemoryCache V) (key : String) :
    Except String Unit × InMemoryCache V :=
  match mapFind c.cache key with
  | some i => (Except.ok (), removeElement c i)
  | none => (Except.error "key not found", c)

end InMemoryCache

/-- One synchronous cache operation with its call-time instant. -/
inductive CacheOp (V : Type) where
  | set (now : Int) (key : String) (value : V) (ttl : Int)
  | get (now : Int) (key : String)
  | del (key : String)

/-- Apply one operation to the state, discarding the returned value. -/
def applyOp {V : Type} [Inhabited V] (c : InMemoryCache V) : CacheOp V → InMemoryCache V
  | CacheOp.set now k v d => c.Set now k v d
  | CacheOp.get now k => (c.Get now k).2
  | CacheOp.del k => (c.Delete k).2

/-- Run a sequence of operations from a starting state. -/
def runOps {V : Type} [Inhabited V] (c : InMemoryCache V) (ops : List (CacheOp V)) :
    InMemoryCache V :=
  ops.foldl applyOp c

/-- The keys held in the recency-ordering structure, front first. -/
def listKeys {V : Type} [Inhabited V] (c : InMemoryCache V) : List String :=
  c.lruList.map (fun i => (heapGet c.heap i).key)

/-- The well-formedness invariant of a reachable cache state: the element
addresses in the list are distinct, the map's keys are distinct, every map
binding points to a list element whose entry carries that key and whose
address is below the allocation counter, every list element's key is bound in
the map to that very element, and map and list have the same size. -/
def CacheInv {V : Type} [Inhabited V] (c : InMemoryCache V) : Prop :=
  c.lruList.Nodup ∧
  (c.cache.map Prod.fst).Nodup ∧
  (∀ p ∈ c.cache, p.2 ∈ c.lruList ∧ (heapGet c.heap p.2).key = p.1 ∧ p.2 < c.nextId) ∧
  (∀ i ∈ c.lruList, mapFind c.cache ((heapGet c.heap i).key) = some i) ∧
  c.lruList.length = c.cache.length

instance {V : Type} [Inhabited V] (c : InMemoryCache V) : Decidable (CacheInv c) := by
  unfold CacheInv
  infer_instance

/-! ### Lemmas about the map, the memory and the list model -/

theorem mapFind_eq_none {m : List (String × Nat)} {k : String} :
    mapFind m k = none ↔ k ∉ m.map Prod.fst := by
  induction m with
  | nil => simp [mapFind]
  | cons p rest ih =>
      obtain ⟨k', v⟩ := p
      by_cases h : k' = k
      · subst h
        simp [mapFind]
      · have h2 : k ≠ k' := fun he => h he.symm
        simp [mapFind, h, ih, h2]

theorem mapFind_mem {m : List (String × Nat)} {k : String} {i : Nat}
    (h : mapFind m k = some i) : (k, i) ∈ m := by
  induction m with
  | nil => simp [mapFind] at h
  | cons p rest ih =>
      obtain ⟨k', v⟩ := p
      rw [mapFind] at h
      by_cases hk : k' = k
      · subst hk
        rw [if_pos rfl] at h
        injection h with h
        subst h
        exact List.mem_cons_self _ _
      · rw [if_neg hk] at h
        exact List.mem_cons_of_mem _ (ih h)

theorem mapFind_of_mem {m : List (String × Nat)} {k : String} {i : Nat}
    (hnd : (m.map Prod.fst).Nodup) (h : (k, i) ∈ m) : mapFind m k = some i := by
  induction m with
  | nil => simp at h
  | cons p rest ih =>
      obtain ⟨k', v⟩ := p
      rw [List.map_cons, List.nodup_cons] at hnd
      rw [mapFind]
      rcases List.mem_cons.mp h with h1 | h1
      · cases h1
        simp
      · have hk : ¬k' = k := by
          intro he
          subst he
          exact hnd.1 (List.mem_map.mpr ⟨(k', i), h1, rfl⟩)
        rw [if_neg hk]
        exact ih hnd.2 h1

theorem mem_mapErase {m : List (String × Nat)} {k : String} {p : String × Nat} :
    p ∈ mapErase m k ↔ p ∈ m ∧ p.1 ≠ k := by
  simp [mapErase, List.mem_filter]

theorem mapFind_mapErase_self {m : List (String × Nat)} {k : String} :
    mapFind (mapErase m k) k = none := by
  rw [mapFind_eq_none]
  intro h
  obtain ⟨p, hp, hp1⟩ := List.mem_map.mp h
  exact (mem_mapErase.mp hp).2 hp1

theorem mapFind_mapErase_ne {m : List (String × Nat)} {k k' : String} (h : k ≠ k') :
    mapFind (mapErase m k') k = mapFind m k := by
  induction m with
  | nil => rfl
  | cons p rest ih =>
      obtain ⟨k1, v⟩ := p
      by_cases h1 : k1 = k'
      · have hne : ¬k1 = k := by
          intro he
          rw [← he, h1] at h
          exact h rfl
        rw [show mapErase ((k1, v) :: rest) k' = mapErase rest k' by
          simp [mapErase, h1]]
        rw [ih, mapFind, if_neg hne]
      · rw [show mapErase ((k1, v) :: rest) k' = (k1, v) :: mapErase rest k' by
          simp [mapErase, h1]]
        rw [mapFind, mapFind]
        by_cases h2 : k1 = k
        · rw [if_pos h2, if_pos h2]
        · rw [if_neg h2, if_neg h2, ih]

theorem mapErase_keys_nodup {m : List (String × Nat)} {k : String}
    (h : (m.map Prod.fst).Nodup) : ((mapErase m k).map Prod.fst).Nodup := by
  have hsub : List.Sublist (mapErase m k) m := List.filter_sublist m
  exact List.Nodup.sublist (List.Sublist.map Prod.fst hsub) h

theorem mapErase_length {m : List (String × Nat)} {k : String}
    (hnd : (m.map Prod.fst).Nodup) (h : k ∈ m.map Prod.fst) :
    (mapErase m k).length + 1 = m.length := by
  induction m with
  | nil => simp at h
  | cons p rest ih =>
      obtain ⟨k1, v⟩ := p
      rw [List.map_cons, List.nodup_cons] at hnd
      by_cases h1 : k1 = k
      · subst h1
        rw [show mapErase ((k1, v) :: rest) k1 = mapErase rest k1 by
          simp [mapErase]]
        have hres : mapErase rest k1 = rest := by
          unfold mapErase
          apply List.filter_eq_self.mpr
          intro p hp
          have hne : p.1 ≠ k1 := by
            intro he
            exact hnd.1 (List.mem_map.mpr ⟨p, hp, he⟩)
          simp [hne]
        rw [hres]
        simp
      · have hmem : k ∈ rest.map Prod.fst := by
          rw [List.map_cons, List.mem_cons] at h
          rcases h with h2 | h2
          · exact absurd h2.symm h1
          · exact h2
        rw [show mapErase ((k1, v) :: rest) k = (k1, v) :: mapErase rest k by
          simp [mapErase, h1]]
        have := ih hnd.2 hmem
        simp only [List.length_cons]
        omega

theorem heapGet_heapSet_self {V : Type} [Inhabited V] {h : List (Nat × Entry V)}
    {i : Nat} {e : Entry V} : heapGet (heapSet h i e) i = e := by
  simp [heapSet, heapGet]

theorem heapGet_heapSet_ne {V : Type} [Inhabited V] {h : List (Nat × Entry V)}
    {i j : Nat} {e : Entry V} (hne : i ≠ j) : heapGet (heapSet h i e) j = heapGet h j := by
  simp [heapSet, heapGet, hne]

theorem mem_listMoveToFront {l : List Nat} {i j : Nat} :
    j ∈ listMoveToFront l i ↔ j ∈ l := by
  unfold listMoveToFront
  by_cases h : i ∈ l
  · rw [if_pos h]
    by_cases hj : j = i
    · subst hj
      simp [h]
    · simp only [List.mem_cons]
      rw [List.mem_erase_of_ne hj]
      constructor
      · rintro (h1 | h1)
        · exact absurd h1 hj
        · exact h1
      · exact fun h1 => Or.inr h1
  · rw [if_neg h]

theorem nodup_listMoveToFront {l : List Nat} {i : Nat} (hnd : l.Nodup) :
    (listMoveToFront l i).Nodup := by
  unfold listMoveToFront
  by_cases h : i ∈ l
  · rw [if_pos h]
    exact List.nodup_cons.mpr ⟨List.Nodup.not_mem_erase hnd, hnd.erase i⟩
  · rw [if_neg h]
    exact hnd

theorem length_listMoveToFront {l : List Nat} {i : Nat} (h : i ∈ l) :
    (listMoveToFront l i).length = l.length := by
  unfold listMoveToFront
  rw [if_pos h, List.length_cons, List.length_erase_of_mem h]
  have : 1 ≤ l.length := List.length_pos.mpr (List.ne_nil_of_mem h)
  omega

/-! ### Preservation of the invariant by each operation -/

theorem lru_lt_nextId {V : Type} [Inhabited V] {c : InMemoryCache V} (hc : CacheInv c)
    {i : Nat} (hi : i ∈ c.lruList) : i < c.nextId := by
  obtain ⟨hL, hK, hMap, hList, hLen⟩ := hc
  exact (hMap _ (mapFind_mem (hList i hi))).2.2

theorem removeElement_inv {V : Type} [Inhabited V] {c : InMemoryCache V}
    (hc : CacheInv c) {i : Nat} (hi : i ∈ c.lruList) :
    CacheInv (c.removeElement i) := by
  obtain ⟨hL, hK, hMap, hList, hLen⟩ := hc
  have hfind : mapFind c.cache ((heapGet c.heap i).key) = some i := hList i hi
  have hkmem : (heapGet c.heap i).key ∈ c.cache.map Prod.fst :=
    List.mem_map.mpr ⟨_, mapFind_mem hfind, rfl⟩
  unfold CacheInv InMemoryCache.removeElement
  refine ⟨hL.erase i, mapErase_keys_nodup hK, ?_, ?_, ?_⟩
  · intro p hp
    obtain ⟨hpc, hpne⟩ := mem_mapErase.mp hp
    obtain ⟨hmem, hkey, hlt⟩ := hMap p hpc
    have hne : p.2 ≠ i := by
      intro he
      rw [he] at hkey
      exact hpne hkey.symm
    exact ⟨(List.mem_erase_of_ne hne).mpr hmem, hkey, hlt⟩
  · intro j hj
    have hjl : j ∈ c.lruList := List.mem_of_mem_erase hj
    have hji : j ≠ i := by
      intro he
      subst he
      exact (List.Nodup.not_mem_erase hL) hj
    have hkj : mapFind c.cache ((heapGet c.heap j).key) = some j := hList j hjl
    have hkne : (heapGet c.heap j).key ≠ (heapGet c.heap i).key := by
      intro he
      rw [he, hfind] at hkj
      injection hkj with hkj
      exact hji hkj.symm
    rw [mapFind_mapErase_ne hkne]
    exact hkj
  · have h1 : (c.lruList.erase i).length = c.lruList.length - 1 :=
      List.length_erase_of_mem hi
    have h2 := mapErase_length hK hkmem
    have h3 : 1 ≤ c.lruList.length := List.length_pos.mpr (List.ne_nil_of_mem hi)
    simp only [h1]
    omega

theorem mem_of_getLast?_eq_some {l : List Nat} {i : Nat} (h : l.getLast? = some i) :
    i ∈ l := by
  have hmem : i ∈ l.getLast? := by
    rw [Option.mem_def, h]
  obtain ⟨hne, heq⟩ := List.mem_getLast?_eq_getLast hmem
  rw [heq]
  exact List.getLast_mem hne

theorem evict_inv {V : Type} [Inhabited V] {c : InMemoryCache V} (hc : CacheInv c) :
    CacheInv c.evict := by
  unfold InMemoryCache.evict
  cases hl : c.lruList.getLast? with
  | none => exact hc
  | some i => exact removeElement_inv hc (mem_of_getLast?_eq_some hl)

theorem evict_heap {V : Type} [Inhabited V] (c : InMemoryCache V) :
    c.evict.heap = c.heap := by
  unfold InMemoryCache.evict
  cases c.lruList.getLast? <;> rfl

theorem evict_nextId {V : Type} [Inhabited V] (c : InMemoryCache V) :
    c.evict.nextId = c.nextId := by
  unfold InMemoryCache.evict
  cases c.lruList.getLast? <;> rfl

theorem evict_maxSize {V : Type} [Inhabited V] (c : InMemoryCache V) :
    c.evict.maxSize = c.maxSize := by
  unfold InMemoryCache.evict
  cases c.lruList.getLast? <;> rfl

theorem mapFind_mapErase_none {m : List (String × Nat)} {k k' : String}
    (h : mapFind m k = none) : mapFind (mapErase m k') k = none := by
  by_cases he : k = k'
  · subst he
    exact mapFind_mapErase_self
  · rw [mapFind_mapErase_ne he]
    exact h

theorem evict_find_none {V : Type} [Inhabited V] {c : InMemoryCache V} {k : String}
    (h : mapFind c.cache k = none) : mapFind c.evict.cache k = none := by
  unfold InMemoryCache.evict
  cases c.lruList.getLast? with
  | none => exact h
  | some i => exact mapFind_mapErase_none h

/-! ### Explicit descriptions of each operation's result -/

theorem Set_existing {V : Type} [Inhabited V] {c : InMemoryCache V} {key : String}
    {i : Nat} (hfind : mapFind c.cache key = some i) (now : Int) (v : V) (ttl : Int) :
    c.Set now key v ttl =
      { c with
        lruList := listMoveToFront c.lruList i,
        heap := heapSet (heapSet c.heap i { heapGet c.heap i with value := v }) i
          { key := (heapGet c.heap i).key, value := v, ttl := now + ttl } } := by
  unfold InMemoryCache.Set
  rw [hfind]
  simp [heapGet_heapSet_self]

theorem Set_new_evict {V : Type} [Inhabited V] {c : InMemoryCache V} {key : String}
    (hfind : mapFind c.cache key = none)
    (hcap : (c.cache.length : Int) ≥ c.maxSize) (now : Int) (v : V) (ttl : Int) :
    c.Set now key v ttl =
      { c.evict with
        heap := heapSet c.evict.heap c.evict.nextId ⟨key, v, now + ttl⟩,
        lruList := c.evict.nextId :: c.evict.lruList,
        cache := (key, c.evict.nextId) :: c.evict.cache,
        nextId := c.evict.nextId + 1 } := by
  unfold InMemoryCache.Set
  rw [hfind]
  simp [hcap]

theorem Set_new_noevict {V : Type} [Inhabited V] {c : InMemoryCache V} {key : String}
    (hfind : mapFind c.cache key = none)
    (hcap : ¬(c.cache.length : Int) ≥ c.maxSize) (now : Int) (v : V) (ttl : Int) :
    c.Set now key v ttl =
      { c with
        heap := heapSet c.heap c.nextId ⟨key, v, now + ttl⟩,
        lruList := c.nextId :: c.lruList,
        cache := (key, c.nextId) :: c.cache,
        nextId := c.nextId + 1 } := by
  unfold InMemoryCache.Set
  rw [hfind]
  simp [hcap]

theorem Get_absent {V : Type} [Inhabited V] {c : InMemoryCache V} {key : String}
    (hfind : mapFind c.cache key = none) (now : Int) :
    c.Get now key = (Except.error "key not found", c) := by
  unfold InMemoryCache.Get
  rw [hfind]

theorem Get_live {V : Type} [Inhabited V] {c : InMemoryCache V} {key : String}
    {i : Nat} {now : Int} (hfind : mapFind c.cache key = some i)
    (ht : now < (heapGet c.heap i).ttl) :
    c.Get now key = (Except.ok (heapGet c.heap i).value,
      { c with lruList := listMoveToFront c.lruList i }) := by
  unfold InMemoryCache.Get
  rw [hfind]
  simp [ht]

theorem Get_expired {V : Type} [Inhabited V] {c : InMemoryCache V} {key : String}
    {i : Nat} {now : Int} (hfind : mapFind c.cache key = some i)
    (ht : ¬now < (heapGet c.heap i).ttl) :
    c.Get now key = (Except.error "key not found", c.removeElement i) := by
  unfold InMemoryCache.Get
  rw [hfind]
  simp [ht]

theorem Delete_present {V : Type} [Inhabited V] {c : InMemoryCache V} {key : String}
    {i : Nat} (hfind : mapFind c.cache key = some i) :
    c.Delete key = (Except.ok (), c.removeElement i) := by
  unfold InMemoryCache.Delete
  rw [hfind]

theorem Delete_absent {V : Type} [Inhabited V] {c : InMemoryCache V} {key : String}
    (hfind : mapFind c.cache key = none) :
    c.Delete key = (Except.error "key not found", c) := by
  unfold InMemoryCache.Delete
  rw [hfind]

/-! ### Invariant preservation for Set, Get, Delete -/

theorem moveToFront_inv {V : Type} [Inhabited V] {c : InMemoryCache V}
    (hc : CacheInv c) {i : Nat} (hi : i ∈ c.lruList) :
    CacheInv { c with lruList := listMoveToFront c.lruList i } := by
  obtain ⟨hL, hK, hMap, hList, hLen⟩ := hc
  refine ⟨nodup_listMoveToFront hL, hK, ?_, ?_, ?_⟩
  · intro p hp
    obtain ⟨hmem, hk, hlt⟩ := hMap p hp
    exact ⟨mem_listMoveToFront.mpr hmem, hk, hlt⟩
  · intro j hj
    exact hList j (mem_listMoveToFront.mp hj)
  · show (listMoveToFront c.lruList i).length = c.cache.length
    rw [length_listMoveToFront hi]
    exact hLen

theorem push_inv {V : Type} [Inhabited V] {c1 : InMemoryCache V} (hc1 : CacheInv c1)
    {key : String} (hfind : mapFind c1.cache key = none) (v : V) (t : Int) :
    CacheInv { c1 with
      heap := heapSet c1.heap c1.nextId ⟨key, v, t⟩,
      lruList := c1.nextId :: c1.lruList,
      cache := (key, c1.nextId) :: c1.cache,
      nextId := c1.nextId + 1 } := by
  have hfresh : c1.nextId ∉ c1.lruList := fun hmem =>
    lt_irrefl _ (lru_lt_nextId hc1 hmem)
  obtain ⟨hL, hK, hMap, hList, hLen⟩ := hc1
  have hknot : key ∉ c1.cache.map Prod.fst := mapFind_eq_none.mp hfind
  refine ⟨List.nodup_cons.mpr ⟨hfresh, hL⟩, ?_, ?_, ?_, ?_⟩
  · rw [List.map_cons]
    exact List.nodup_cons.mpr ⟨hknot, hK⟩
  · intro p hp
    rcases List.mem_cons.mp hp with h1 | h1
    · subst h1
      refine ⟨List.mem_cons_self _ _, ?_, Nat.lt_succ_self _⟩
      simp [heapGet_heapSet_self]
    · obtain ⟨hmem, hk, hlt⟩ := hMap p h1
      have hne : c1.nextId ≠ p.2 := fun hh => Nat.ne_of_lt hlt hh.symm
      refine ⟨List.mem_cons_of_mem _ hmem, ?_, Nat.lt_succ_of_lt hlt⟩
      show (heapGet (heapSet c1.heap c1.nextId ⟨key, v, t⟩) p.2).key = p.1
      rw [heapGet_heapSet_ne hne]
      exact hk
  · intro j hj
    rcases List.mem_cons.mp hj with h1 | h1
    · subst h1
      simp [heapGet_heapSet_self, mapFind]
    · have hjlt : j < c1.nextId := lru_lt_nextId ⟨hL, hK, hMap, hList, hLen⟩ h1
      have hne : c1.nextId ≠ j := fun hh => Nat.ne_of_lt hjlt hh.symm
      show mapFind ((key, c1.nextId) :: c1.cache)
        ((heapGet (heapSet c1.heap c1.nextId ⟨key, v, t⟩) j).key) = some j
      rw [heapGet_heapSet_ne hne]
      have hkj := hList j h1
      have hkey_ne : ¬key = (heapGet c1.heap j).key := by
        intro he
        rw [← he, hfind] at hkj
        cases hkj
      rw [mapFind, if_neg hkey_ne]
      exact hkj
  · show (c1.nextId :: c1.lruList).length = ((key, c1.nextId) :: c1.cache).length
    simp only [List.length_cons]
    omega

theorem Set_inv {V : Type} [Inhabited V] {c : InMemoryCache V} (hc : CacheInv c)
    (now : Int) (key : String) (v : V) (ttl : Int) :
    CacheInv (c.Set now key v ttl) := by
  cases hfind : mapFind c.cache key with
  | some i =>
      rw [Set_existing hfind]
      obtain ⟨hL, hK, hMap, hList, hLen⟩ := hc
      have hpmem : (key, i) ∈ c.cache := mapFind_mem hfind
      have hi : i ∈ c.lruList := (hMap _ hpmem).1
      refine ⟨nodup_listMoveToFront hL, hK, ?_, ?_, ?_⟩
      · intro p hp
        obtain ⟨hmem, hk, hlt⟩ := hMap p hp
        refine ⟨mem_listMoveToFront.mpr hmem, ?_, hlt⟩
        by_cases he : i = p.2
        · subst he
          simp [heapGet_heapSet_self]
          rw [← hk]
        · show (heapGet (heapSet (heapSet c.heap i { heapGet c.heap i with value := v }) i
            { key := (heapGet c.heap i).key, value := v, ttl := now + ttl }) p.2).key = p.1
          rw [heapGet_heapSet_ne he, heapGet_heapSet_ne he]
          exact hk
      · intro j hj
        have hjl : j ∈ c.lruList := mem_listMoveToFront.mp hj
        by_cases he : i = j
        · subst he
          simp only [heapGet_heapSet_self]
          simpa using hList i hjl
        · show mapFind c.cache
            ((heapGet (heapSet (heapSet c.heap i { heapGet c.heap i with value := v }) i
              { key := (heapGet c.heap i).key, value := v, ttl := now + ttl }) j).key) = some j
          rw [heapGet_heapSet_ne he, heapGet_heapSet_ne he]
          exact hList j hjl
      · show (listMoveToFront c.lruList i).length = c.cache.length
        rw [length_listMoveToFront hi]
        exact hLen
  | none =>
      by_cases hcap : (c.cache.length : Int) ≥ c.maxSize
      · rw [Set_new_evict hfind hcap]
        exact push_inv (evict_inv hc) (evict_find_none hfind) v (now + ttl)
      · rw [Set_new_noevict hfind hcap]
        exact push_inv hc hfind v (now + ttl)

theorem Get_inv {V : Type} [Inhabited V] {c : InMemoryCache V} (hc : CacheInv c)
    (now : Int) (key : String) : CacheInv (c.Get now key).2 := by
  cases hfind : mapFind c.cache key with
  | none =>
      rw [Get_absent hfind]
      exact hc
  | some i =>
      have hi : i ∈ c.lruList := (hc.2.2.1 _ (mapFind_mem hfind)).1
      by_cases ht : now < (heapGet c.heap i).ttl
      · rw [Get_live hfind ht]
        exact moveToFront_inv hc hi
      · rw [Get_expired hfind ht]
        exact removeElement_inv hc hi

theorem Delete_inv {V : Type} [Inhabited V] {c : InMemoryCache V} (hc : CacheInv c)
    (key : String) : CacheInv (c.Delete key).2 := by
  cases hfind : mapFind c.cache key with
  | none =>
      rw [Delete_absent hfind]
      exact hc
  | some i =>
      rw [Delete_present hfind]
      exact removeElement_inv hc (hc.2.2.1 _ (mapFind_mem hfind)).1

theorem applyOp_inv {V : Type} [Inhabited V] {c : InMemoryCache V} (hc : CacheInv c)
    (op : CacheOp V) : CacheInv (applyOp c op) := by
  cases op with
  | set now k v d => exact Set_inv hc now k v d
  | get now k => exact Get_inv hc now k
  | del k => exact Delete_inv hc k

theorem NewInMemoryCache_inv {V : Type} [Inhabited V] (m : Int) :
    CacheInv (InMemoryCache.NewInMemoryCache V m) := by
  refine ⟨List.nodup_nil, ?_, ?_, ?_, rfl⟩ <;>
    simp [InMemoryCache.NewInMemoryCache]

theorem runOps_inv {V : Type} [Inhabited V] {c : InMemoryCache V} (hc : CacheInv c)
    (ops : List (CacheOp V)) : CacheInv (runOps c ops) := by
  induction ops generalizing c with
  | nil => exact hc
  | cons op rest ih => exact ih (applyOp_inv hc op)

/-! ### maxSize preservation and entry-count bounds -/

theorem Set_maxSize {V : Type} [Inhabited V] (c : InMemoryCache V) (now : Int)
    (key : String) (v : V) (ttl : Int) : (c.Set now key v ttl).maxSize = c.maxSize := by
  cases hfind : mapFind c.cache key with
  | some i => rw [Set_existing hfind]
  | none =>
      by_cases hcap : (c.cache.length : Int) ≥ c.maxSize
      · rw [Set_new_evict hfind hcap]
        exact evict_maxSize c
      · rw [Set_new_noevict hfind hcap]

theorem Get_maxSize {V : Type} [Inhabited V] (c : InMemoryCache V) (now : Int)
    (key : String) : (c.Get now key).2.maxSize = c.maxSize := by
  cases hfind : mapFind c.cache key with
  | none => rw [Get_absent hfind]
  | some i =>
      by_cases ht : now < (heapGet c.heap i).ttl
      · rw [Get_live hfind ht]
      · rw [Get_expired hfind ht]
        rfl

theorem Delete_maxSize {V : Type} [Inhabited V] (c : InMemoryCache V) (key : String) :
    (c.Delete key).2.maxSize = c.maxSize := by
  cases hfind : mapFind c.cache key with
  | none => rw [Delete_absent hfind]
  | some i =>
      rw [Delete_present hfind]
      rfl

theorem applyOp_maxSize {V : Type} [Inhabited V] (c : InMemoryCache V) (op : CacheOp V) :
    (applyOp c op).maxSize = c.maxSize := by
  cases op with
  | set now k v d => exact Set_maxSize c now k v d
  | get now k => exact Get_maxSize c now k
  | del k => exact Delete_maxSize c k

theorem evict_card {V : Type} [Inhabited V] {c : InMemoryCache V} (hc : CacheInv c)
    (hne : c.cache.length ≠ 0) : c.evict.cache.length + 1 = c.cache.length := by
  obtain ⟨hL, hK, hMap, hList, hLen⟩ := hc
  have hlne : c.lruList ≠ [] := by
    intro h
    rw [h] at hLen
    exact hne hLen.symm
  obtain ⟨i, hi⟩ : ∃ i, c.lruList.getLast? = some i := by
    cases hgl : c.lruList.getLast? with
    | none => exact absurd (List.getLast?_eq_none_iff.mp hgl) hlne
    | some i => exact ⟨i, rfl⟩
  unfold InMemoryCache.evict
  rw [hi]
  have himem : i ∈ c.lruList := mem_of_getLast?_eq_some hi
  have hfind := hList i himem
  have hkmem : (heapGet c.heap i).key ∈ c.cache.map Prod.fst :=
    List.mem_map.mpr ⟨_, mapFind_mem hfind, rfl⟩
  exact mapErase_length hK hkmem

theorem mapErase_length_le {m : List (String × Nat)} {k : String} :
    (mapErase m k).length ≤ m.length :=
  List.length_filter_le _ m

theorem applyOp_card {V : Type} [Inhabited V] {c : InMemoryCache V} (hc : CacheInv c)
    {m : Int} (hm : 1 ≤ m) (hms : c.maxSize = m)
    (hcard : (c.cache.length : Int) ≤ m) (op : CacheOp V) :
    ((applyOp c op).cache.length : Int) ≤ m := by
  cases op with
  | get now k =>
      show (((c.Get now k).2.cache.length : Int) ≤ m)
      cases hfind : mapFind c.cache k with
      | none =>
          rw [Get_absent hfind]
          exact hcard
      | some i =>
          by_cases ht : now < (heapGet c.heap i).ttl
          · rw [Get_live hfind ht]
            exact hcard
          · rw [Get_expired hfind ht]
            have := @mapErase_length_le c.cache (heapGet c.heap i).key
            show (((mapErase c.cache (heapGet c.heap i).key).length : Int) ≤ m)
            omega
  | del k =>
      show (((c.Delete k).2.cache.length : Int) ≤ m)
      cases hfind : mapFind c.cache k with
      | none =>
          rw [Delete_absent hfind]
          exact hcard
      | some i =>
          rw [Delete_present hfind]
          have := @mapErase_length_le c.cache (heapGet c.heap i).key
          show (((mapErase c.cache (heapGet c.heap i).key).length : Int) ≤ m)
          omega
  | set now k v d =>
      show (((c.Set now k v d).cache.length : Int) ≤ m)
      cases hfind : mapFind c.cache k with
      | some i =>
          rw [Set_existing hfind]
          exact hcard
      | none =>
          by_cases hcap : (c.cache.length : Int) ≥ c.maxSize
          · rw [Set_new_evict hfind hcap]
            rw [hms] at hcap
            have hne : c.cache.length ≠ 0 := by omega
            have h1 := evict_card hc hne
            show ((((k, c.evict.nextId) :: c.evict.cache).length : Int) ≤ m)
            rw [List.length_cons]
            omega
          · rw [Set_new_noevict hfind hcap]
            rw [hms] at hcap
            show ((((k, c.nextId) :: c.cache).length : Int) ≤ m)
            rw [List.length_cons]
            omega

theorem runOps_card_aux {V : Type} [Inhabited V] {c : InMemoryCache V} (hc : CacheInv c)
    {m : Int} (hm : 1 ≤ m) (hms : c.maxSize = m) (hcard : (c.cache.length : Int) ≤ m)
    (ops : List (CacheOp V)) : ((runOps c ops).cache.length : Int) ≤ m := by
  induction ops generalizing c with
  | nil => exact hcard
  | cons op rest ih =>
      exact ih (applyOp_inv hc op)
        (by rw [applyOp_maxSize]; exact hms)
        (applyOp_card hc hm hms hcard op)

/-! ### The list-map correspondence derived from the invariant -/

theorem inv_listKeys {V : Type} [Inhabited V] {c : InMemoryCache V} (hc : CacheInv c) :
    (∀ k, k ∈ listKeys c ↔ k ∈ c.cache.map Prod.fst) ∧ (listKeys c).Nodup := by
  obtain ⟨hL, hK, hMap, hList, hLen⟩ := hc
  constructor
  · intro k
    constructor
    · intro hk
      obtain ⟨i, hi, hik⟩ := List.mem_map.mp hk
      have hfind := hList i hi
      rw [hik] at hfind
      exact List.mem_map.mpr ⟨_, mapFind_mem hfind, rfl⟩
    · intro hk
      obtain ⟨p, hp, hpk⟩ := List.mem_map.mp hk
      obtain ⟨hmem, hkey, hlt⟩ := hMap p hp
      exact List.mem_map.mpr ⟨p.2, hmem, by rw [hkey, hpk]⟩
  · apply List.Nodup.map_on ?_ hL
    intro i hi j hj hij
    have h1 := hList i hi
    have h2 := hList j hj
    rw [hij, h2] at h1
    injection h1 with h1
    exact h1.symm

/-! ### Additional helper lemmas for the claim theorems -/

theorem runOps_maxSize {V : Type} [Inhabited V] (c : InMemoryCache V)
    (ops : List (CacheOp V)) : (runOps c ops).maxSize = c.maxSize := by
  induction ops generalizing c with
  | nil => rfl
  | cons op rest ih =>
      show (runOps (applyOp c op) rest).maxSize = c.maxSize
      rw [ih, applyOp_maxSize]

theorem Set_find_entry {V : Type} [Inhabited V] {c : InMemoryCache V} (hc : CacheInv c)
    (now : Int) (key : String) (v : V) (ttl : Int) :
    ∃ i, mapFind (c.Set now key v ttl).cache key = some i ∧
      heapGet (c.Set now key v ttl).heap i = ⟨key, v, now + ttl⟩ := by
  cases hfind : mapFind c.cache key with
  | some i =>
      have hkey : (heapGet c.heap i).key = key := (hc.2.2.1 _ (mapFind_mem hfind)).2.1
      refine ⟨i, ?_, ?_⟩
      · rw [Set_existing hfind]
        exact hfind
      · rw [Set_existing hfind]
        show heapGet (heapSet (heapSet c.heap i { heapGet c.heap i with value := v }) i
          { key := (heapGet c.heap i).key, value := v, ttl := now + ttl }) i = _
        rw [heapGet_heapSet_self, hkey]
  | none =>
      by_cases hcap : (c.cache.length : Int) ≥ c.maxSize
      · refine ⟨c.evict.nextId, ?_, ?_⟩
        · rw [Set_new_evict hfind hcap]
          show mapFind ((key, c.evict.nextId) :: c.evict.cache) key = some c.evict.nextId
          rw [mapFind, if_pos rfl]
        · rw [Set_new_evict hfind hcap]
          exact heapGet_heapSet_self
      · refine ⟨c.nextId, ?_, ?_⟩
        · rw [Set_new_noevict hfind hcap]
          show mapFind ((key, c.nextId) :: c.cache) key = some c.nextId
          rw [mapFind, if_pos rfl]
        · rw [Set_new_noevict hfind hcap]
          exact heapGet_heapSet_self

/-! ### Claim theorems -/

/-- C10: for every key not present in the key-to-entry map, a failing `Get` or
`Delete` of that key returns the not-found error and leaves the entire cache
state (map, recency order, every entry) unchanged. -/
theorem claim_C10_failed_get_delete_frame {V : Type} [Inhabited V]
    (c : InMemoryCache V) (now : Int) (key : String)
    (habs : mapFind c.cache key = none) :
    (c.Get now key).1 = Except.error "key not found" ∧ (c.Get now key).2 = c ∧
    (c.Delete key).1 = Except.error "key not found" ∧ (c.Delete key).2 = c := by
  rw [Get_absent habs, Delete_absent habs]
  exact ⟨rfl, rfl, rfl, rfl⟩

theorem claim_C10_witness :
    (let c0 := (InMemoryCache.NewInMemoryCache Nat 2).Set 0 "a" 1 10
     (c0.Get 5 "b").1 = Except.error "key not found" ∧ (c0.Get 5 "b").2 = c0 ∧
     (c0.Delete "b").1 = Except.error "key not found" ∧ (c0.Delete "b").2 = c0) :=
  claim_C10_failed_get_delete_frame _ 5 "b" (by decide)

/-- C8: a never-present key and a present-but-expired key produce the same
`Get` outcome: the identical error value `key not found`. -/
theorem claim_C8_absent_expired_same_error {V : Type} [Inhabited V]
    (c : InMemoryCache V) (now : Int) (k1 k2 : String) (i : Nat)
    (habs : mapFind c.cache k1 = none)
    (hpres : mapFind c.cache k2 = some i)
    (hexp : (heapGet c.heap i).ttl ≤ now) :
    (c.Get now k1).1 = Except.error "key not found" ∧
    (c.Get now k2).1 = Except.error "key not found" ∧
    (c.Get now k1).1 = (c.Get now k2).1 := by
  rw [Get_absent habs, Get_expired hpres (not_lt.mpr hexp)]
  exact ⟨rfl, rfl, rfl⟩

theorem claim_C8_witness :
    (let c0 := (InMemoryCache.NewInMemoryCache Nat 2).Set 0 "a" 1 10
     (c0.Get 20 "b").1 = Except.error "key not found" ∧
     (c0.Get 20 "a").1 = Except.error "key not found" ∧
     (c0.Get 20 "b").1 = (c0.Get 20 "a").1) :=
  claim_C8_absent_expired_same_error _ 20 "b" "a" 0 (by decide) (by decide) (by decide)

/-- C9: `Set` on an existing key overwrites the entry's value, resets its
expiration to `now + ttl`, moves its element to the front of the recency
order, and leaves the map (hence the entry count) unchanged: no eviction. -/
theorem claim_C9_update_existing {V : Type} [Inhabited V] {c : InMemoryCache V}
    (hc : CacheInv c) {key : String} {i : Nat}
    (hfind : mapFind c.cache key = some i) (now : Int) (v : V) (ttl : Int) :
    (c.Set now key v ttl).cache = c.cache ∧
    heapGet (c.Set now key v ttl).heap i = ⟨key, v, now + ttl⟩ ∧
    (c.Set now key v ttl).lruList = i :: c.lruList.erase i ∧
    (c.Set now key v ttl).cache.length = c.cache.length := by
  have hkey : (heapGet c.heap i).key = key := (hc.2.2.1 _ (mapFind_mem hfind)).2.1
  have hi : i ∈ c.lruList := (hc.2.2.1 _ (mapFind_mem hfind)).1
  rw [Set_existing hfind]
  refine ⟨rfl, ?_, ?_, rfl⟩
  · show heapGet (heapSet (heapSet c.heap i { heapGet c.heap i with value := v }) i
      { key := (heapGet c.heap i).key, value := v, ttl := now + ttl }) i = _
    rw [heapGet_heapSet_self, hkey]
  · show listMoveToFront c.lruList i = i :: c.lruList.erase i
    unfold listMoveToFront
    rw [if_pos hi]

theorem claim_C9_witness :
    (let c0 := ((InMemoryCache.NewInMemoryCache Nat 3).Set 0 "a" 1 10).Set 0 "b" 2 10
     (c0.Set 7 "a" 9 100).cache = c0.cache ∧
     heapGet (c0.Set 7 "a" 9 100).heap 0 = ⟨"a", 9, 107⟩ ∧
     (c0.Set 7 "a" 9 100).lruList = 0 :: c0.lruList.erase 0 ∧
     (c0.Set 7 "a" 9 100).cache.length = c0.cache.length) :=
  claim_C9_update_existing (by decide) (by decide) 7 9 100

/-- C7, counterexample: an entry whose expiration is not in the future is
nevertheless deleted successfully: `Delete` of the expired key `a` (stored at
time 0 with ttl 10, called when 20 has passed) returns success, not the
not-found error the claim requires. -/
theorem claim_C7_counterexample :
    (let c0 := (InMemoryCache.NewInMemoryCache Nat 2).Set 0 "a" 5 10
     mapFind c0.cache "a" = some 0 ∧
     (heapGet c0.heap 0).ttl ≤ 20 ∧
     (c0.Delete "a").1 = Except.ok () ∧
     ¬(c0.Delete "a").1 = Except.error "key not found") := by
  refine ⟨by decide, by decide, rfl, ?_⟩
  intro h
  exact Except.noConfusion h

/-- C7, amended: `Delete` ignores expiration entirely: it succeeds for every
key present in the map (expired or not) and fails with the not-found error
exactly for keys absent from the map; expiry is detected lazily only by
`Get`. -/
theorem claim_C7_amended_delete_ignores_expiry {V : Type} [Inhabited V]
    (c : InMemoryCache V) (key : String) :
    ((∃ i, mapFind c.cache key = some i) → (c.Delete key).1 = Except.ok ()) ∧
    (mapFind c.cache key = none → (c.Delete key).1 = Except.error "key not found") := by
  constructor
  · rintro ⟨i, hfind⟩
    rw [Delete_present hfind]
  · intro h
    rw [Delete_absent h]

theorem claim_C7_amended_witness :
    (let c0 := (InMemoryCache.NewInMemoryCache Nat 2).Set 0 "a" 5 10
     ((∃ i, mapFind c0.cache "a" = some i) → (c0.Delete "a").1 = Except.ok ()) ∧
     (mapFind c0.cache "a" = none → (c0.Delete "a").1 = Except.error "key not found")) :=
  claim_C7_amended_delete_ignores_expiry _ "a"

/-- C3: after `Set key v d` at time `t0`, a `Get` at any time `t < t0 + d`
returns the stored value, and a `Get` at any `t ≥ t0 + d` fails with the
not-found error and physically removes the entry from the map, with no
cleanup call in between: `Get` succeeds exactly when the stored expiration
instant is strictly in the future. -/
theorem claim_C3_expiration {V : Type} [Inhabited V] {c : InMemoryCache V}
    (hc : CacheInv c) (t0 : Int) (key : String) (v : V) (d : Int) (t : Int) :
    (t < t0 + d → ((c.Set t0 key v d).Get t key).1 = Except.ok v) ∧
    (t0 + d ≤ t →
      ((c.Set t0 key v d).Get t key).1 = Except.error "key not found" ∧
      mapFind ((c.Set t0 key v d).Get t key).2.cache key = none) := by
  obtain ⟨i, hfind, hentry⟩ := Set_find_entry hc t0 key v d
  constructor
  · intro ht
    have hlt : t < (heapGet (c.Set t0 key v d).heap i).ttl := by
      rw [hentry]
      exact ht
    rw [Get_live hfind hlt, hentry]
  · intro ht
    have hlt : ¬t < (heapGet (c.Set t0 key v d).heap i).ttl := by
      rw [hentry]
      exact not_lt.mpr ht
    rw [Get_expired hfind hlt]
    refine ⟨rfl, ?_⟩
    show mapFind (mapErase (c.Set t0 key v d).cache
      (heapGet (c.Set t0 key v d).heap i).key) key = none
    rw [hentry]
    exact mapFind_mapErase_self

theorem claim_C3_witness :
    (((5 : Int) < 0 + 10 →
       (((InMemoryCache.NewInMemoryCache Nat 2).Set 0 "a" 42 10).Get 5 "a").1 =
         Except.ok 42) ∧
     ((0 : Int) + 10 ≤ 5 →
       (((InMemoryCache.NewInMemoryCache Nat 2).Set 0 "a" 42 10).Get 5 "a").1 =
         Except.error "key not found" ∧
       mapFind (((InMemoryCache.NewInMemoryCache Nat 2).Set 0 "a" 42 10).Get 5 "a").2.cache
         "a" = none)) :=
  @claim_C3_expiration Nat _ (InMemoryCache.NewInMemoryCache Nat 2) (by decide) 0 "a" 42 10 5

/-- C4: after every sequence of operations from a fresh cache, the multiset of
keys held in the linked list is exactly the set of keys of the map (same
membership and no duplicates): no orphaned list nodes, no missing nodes, each
entry at most once. -/
theorem claim_C4_list_map_agree {V : Type} [Inhabited V] (m : Int)
    (ops : List (CacheOp V)) :
    (∀ k, k ∈ listKeys (runOps (InMemoryCache.NewInMemoryCache V m) ops) ↔
      k ∈ (runOps (InMemoryCache.NewInMemoryCache V m) ops).cache.map Prod.fst) ∧
    (listKeys (runOps (InMemoryCache.NewInMemoryCache V m) ops)).Nodup :=
  inv_listKeys (runOps_inv (NewInMemoryCache_inv m) ops)

theorem evict_eq_remove {V : Type} [Inhabited V] {c : InMemoryCache V} {b : Nat}
    (hb : c.lruList.getLast? = some b) : c.evict = c.removeElement b := by
  unfold InMemoryCache.evict
  rw [hb]

theorem Set_at_capacity {V : Type} [Inhabited V] {c : InMemoryCache V}
    (hc : CacheInv c) {m : Int} (hm : 1 ≤ m) (hms : c.maxSize = m)
    (hfull : (c.cache.length : Int) = m) {k : String}
    (hkabs : mapFind c.cache k = none) (now : Int) (v : V) (d : Int) :
    ∃ b, c.lruList.getLast? = some b ∧
      mapFind (c.Set now k v d).cache ((heapGet c.heap b).key) = none ∧
      (∃ j, mapFind (c.Set now k v d).cache k = some j) ∧
      ((c.Set now k v d).cache.length : Int) = m := by
  have hcap : (c.cache.length : Int) ≥ c.maxSize := by
    rw [hms]
    omega
  have hne : c.cache.length ≠ 0 := by omega
  obtain ⟨hL, hK, hMap, hList, hLen⟩ := hc
  have hlne : c.lruList ≠ [] := by
    intro h
    rw [h] at hLen
    exact hne hLen.symm
  obtain ⟨b, hb⟩ : ∃ b, c.lruList.getLast? = some b := by
    cases hgl : c.lruList.getLast? with
    | none => exact absurd (List.getLast?_eq_none_iff.mp hgl) hlne
    | some b => exact ⟨b, rfl⟩
  have hbmem : b ∈ c.lruList := mem_of_getLast?_eq_some hb
  have hbfind : mapFind c.cache ((heapGet c.heap b).key) = some b := hList b hbmem
  have hbk : (heapGet c.heap b).key ∈ c.cache.map Prod.fst :=
    List.mem_map.mpr ⟨_, mapFind_mem hbfind, rfl⟩
  have hkne : ¬k = (heapGet c.heap b).key := by
    intro he
    rw [← he, hkabs] at hbfind
    cases hbfind
  refine ⟨b, hb, ?_, ?_, ?_⟩
  · rw [Set_new_evict hkabs hcap]
    show mapFind ((k, c.evict.nextId) :: c.evict.cache) ((heapGet c.heap b).key) = none
    rw [mapFind, if_neg hkne, evict_eq_remove hb]
    exact mapFind_mapErase_self
  · refine ⟨c.evict.nextId, ?_⟩
    rw [Set_new_evict hkabs hcap]
    show mapFind ((k, c.evict.nextId) :: c.evict.cache) k = some c.evict.nextId
    rw [mapFind, if_pos rfl]
  · rw [Set_new_evict hkabs hcap]
    show ((((k, c.evict.nextId) :: c.evict.cache).length : Int) = m)
    rw [List.length_cons, evict_eq_remove hb]
    have hlen := mapErase_length hK hbk
    show (((mapErase c.cache (heapGet c.heap b).key).length + 1 : Nat) : Int) = m
    omega

/-- C1: for every positive capacity `m` and every sequence of Set, Get and
Delete operations from a fresh cache, the number of map entries never exceeds
`m`; and in the reached state, a `Set` of a new key when the entry count
equals `m` first evicts the back-of-order entry (its key leaves the map) and
only then inserts the new key, leaving the count at `m`. -/
theorem claim_C1_capacity {V : Type} [Inhabited V] (m : Int) (hm : 1 ≤ m)
    (ops : List (CacheOp V)) (now d : Int) (k : String) (v : V) :
    ((runOps (InMemoryCache.NewInMemoryCache V m) ops).cache.length : Int) ≤ m ∧
    (mapFind (runOps (InMemoryCache.NewInMemoryCache V m) ops).cache k = none →
     ((runOps (InMemoryCache.NewInMemoryCache V m) ops).cache.length : Int) = m →
     ∃ b, (runOps (InMemoryCache.NewInMemoryCache V m) ops).lruList.getLast? = some b ∧
       mapFind ((runOps (InMemoryCache.NewInMemoryCache V m) ops).Set now k v d).cache
         ((heapGet (runOps (InMemoryCache.NewInMemoryCache V m) ops).heap b).key) = none ∧
       (∃ j, mapFind
         ((runOps (InMemoryCache.NewInMemoryCache V m) ops).Set now k v d).cache k =
           some j) ∧
       (((runOps (InMemoryCache.NewInMemoryCache V m) ops).Set now k v d).cache.length :
         Int) = m) := by
  have hc := runOps_inv (NewInMemoryCache_inv (V := V) m) ops
  have hms : (runOps (InMemoryCache.NewInMemoryCache V m) ops).maxSize = m := by
    rw [runOps_maxSize]
    rfl
  have hcard0 : (((InMemoryCache.NewInMemoryCache V m).cache.length : Int)) ≤ m := by
    show ((([] : List (String × Nat)).length : Int)) ≤ m
    simp
    omega
  refine ⟨runOps_card_aux (NewInMemoryCache_inv m) hm rfl hcard0 ops, ?_⟩
  intro hkabs hfull
  exact Set_at_capacity hc hm hms hfull hkabs now v d

theorem claim_C1_witness :
    (((runOps (InMemoryCache.NewInMemoryCache Nat 1) []).cache.length : Int) ≤ 1 ∧
     (mapFind (runOps (InMemoryCache.NewInMemoryCache Nat 1) []).cache "c" = none →
      ((runOps (InMemoryCache.NewInMemoryCache Nat 1) []).cache.length : Int) = 1 →
      ∃ b, (runOps (InMemoryCache.NewInMemoryCache Nat 1) []).lruList.getLast? = some b ∧
        mapFind ((runOps (InMemoryCache.NewInMemoryCache Nat 1) []).Set 0 "c" 5 10).cache
          ((heapGet (runOps (InMemoryCache.NewInMemoryCache Nat 1) []).heap b).key) =
            none ∧
        (∃ j, mapFind
          ((runOps (InMemoryCache.NewInMemoryCache Nat 1) []).Set 0 "c" 5 10).cache "c" =
            some j) ∧
        (((runOps (InMemoryCache.NewInMemoryCache Nat 1) []).Set 0 "c" 5 10).cache.length :
          Int) = 1)) :=
  claim_C1_capacity 1 (by decide) [] 0 10 "c" 5

/-! ### The C2 scenario: N+1 Set calls with pairwise distinct keys -/

/-- One `Set` call of the C2 scenario: its key, value, call instant and ttl. -/
structure SetCall (V : Type) where
  key : String
  value : V
  now : Int
  ttl : Int

/-- The operation sequence consisting of the given `Set` calls in order. -/
def setsOf {V : Type} (calls : List (SetCall V)) : List (CacheOp V) :=
  calls.map (fun s => CacheOp.set s.now s.key s.value s.ttl)

/-- The map contents after executing fresh `Set` calls in order: the j-th call
binds its key to element address `i + j`, most recent binding first. -/
def keysIdx {V : Type} : List (SetCall V) → Nat → List (String × Nat)
  | [], _ => []
  | s :: rest, i => keysIdx rest (i + 1) ++ [(s.key, i)]

/-- The memory contents after executing fresh `Set` calls in order. -/
def heapIdx {V : Type} : List (SetCall V) → Nat → List (Nat × Entry V)
  | [], _ => []
  | s :: rest, i => heapIdx rest (i + 1) ++ [(i, ⟨s.key, s.value, s.now + s.ttl⟩)]

/-- The cache state reached from a fresh cache of capacity `m` by the given
`Set` calls with pairwise-fresh keys and no eviction. -/
def fillState (V : Type) [Inhabited V] (m : Int) (calls : List (SetCall V)) :
    InMemoryCache V :=
  { maxSize := m,
    cache := keysIdx calls 0,
    lruList := (List.range calls.length).reverse,
    heap := heapIdx calls 0,
    nextId := calls.length }

theorem keysIdx_concat {V : Type} (calls : List (SetCall V)) (s : SetCall V) (i : Nat) :
    keysIdx (calls ++ [s]) i = (s.key, i + calls.length) :: keysIdx calls i := by
  induction calls generalizing i with
  | nil => simp [keysIdx]
  | cons c rest ih =>
      show keysIdx (rest ++ [s]) (i + 1) ++ [(c.key, i)] = _
      rw [ih]
      have harith : i + 1 + rest.length = i + (rest.length + 1) := by omega
      simp [keysIdx, harith]

theorem heapIdx_concat {V : Type} (calls : List (SetCall V)) (s : SetCall V) (i : Nat) :
    heapIdx (calls ++ [s]) i =
      (i + calls.length, (⟨s.key, s.value, s.now + s.ttl⟩ : Entry V)) ::
        heapIdx calls i := by
  induction calls generalizing i with
  | nil => simp [heapIdx]
  | cons c rest ih =>
      show heapIdx (rest ++ [s]) (i + 1) ++ [(i, _)] = _
      rw [ih]
      have harith : i + 1 + rest.length = i + (rest.length + 1) := by omega
      simp [heapIdx, harith]

theorem length_keysIdx {V : Type} (calls : List (SetCall V)) (i : Nat) :
    (keysIdx calls i).length = calls.length := by
  induction calls generalizing i with
  | nil => rfl
  | cons c rest ih => simp [keysIdx, ih]

theorem keysIdx_map_fst {V : Type} (calls : List (SetCall V)) (i : Nat) :
    (keysIdx calls i).map Prod.fst = (calls.map SetCall.key).reverse := by
  induction calls generalizing i with
  | nil => rfl
  | cons c rest ih => simp [keysIdx, ih]

theorem heapIdx_lb {V : Type} {calls : List (SetCall V)} {i : Nat}
    {p : Nat × Entry V} (hp : p ∈ heapIdx calls i) : i ≤ p.1 := by
  induction calls generalizing i with
  | nil => simp [heapIdx] at hp
  | cons c rest ih =>
      rw [heapIdx, List.mem_append] at hp
      rcases hp with hp | hp
      · have := ih hp
        omega
      · rw [List.mem_singleton] at hp
        rw [hp]

theorem heapGet_append_of_ne {V : Type} [Inhabited V] {l1 l2 : List (Nat × Entry V)}
    {j : Nat} (h : ∀ p ∈ l1, p.1 ≠ j) : heapGet (l1 ++ l2) j = heapGet l2 j := by
  induction l1 with
  | nil => rfl
  | cons p rest ih =>
      obtain ⟨a, e⟩ := p
      have ha : a ≠ j := h (a, e) (List.mem_cons_self _ _)
      show heapGet ((a, e) :: (rest ++ l2)) j = heapGet l2 j
      rw [heapGet, if_neg ha]
      exact ih fun q hq => h q (List.mem_cons_of_mem _ hq)

theorem runOps_fill {V : Type} [Inhabited V] (m : Int) (calls : List (SetCall V))
    (hnd : (calls.map SetCall.key).Nodup) (hlen : (calls.length : Int) ≤ m) :
    runOps (InMemoryCache.NewInMemoryCache V m) (setsOf calls) = fillState V m calls := by
  induction calls using List.reverseRecOn with
  | nil => rfl
  | append_singleton calls s ih =>
      rw [List.map_append, List.map_singleton] at hnd
      obtain ⟨hnd1, hnd2, hdisj⟩ := List.nodup_append.mp hnd
      have hs : s.key ∉ calls.map SetCall.key :=
        fun hmem => hdisj hmem (List.mem_singleton_self _)
      rw [List.length_append, List.length_singleton] at hlen
      have hlen1 : (calls.length : Int) + 1 ≤ m := by
        omega
      have hlen2 : (calls.length : Int) ≤ m := by omega
      have hsplit : setsOf (calls ++ [s]) =
          setsOf calls ++ [CacheOp.set s.now s.key s.value s.ttl] := by
        simp [setsOf]
      rw [hsplit]
      have hrun : runOps (InMemoryCache.NewInMemoryCache V m)
            (setsOf calls ++ [CacheOp.set s.now s.key s.value s.ttl]) =
          (runOps (InMemoryCache.NewInMemoryCache V m) (setsOf calls)).Set
            s.now s.key s.value s.ttl := by
        show List.foldl applyOp _ _ = _
        rw [List.foldl_append]
        rfl
      rw [hrun, ih hnd1 hlen2]
      have hfind : mapFind (fillState V m calls).cache s.key = none := by
        rw [mapFind_eq_none]
        show s.key ∉ (keysIdx calls 0).map Prod.fst
        rw [keysIdx_map_fst]
        simpa using hs
      have hcap : ¬((fillState V m calls).cache.length : Int) ≥
          (fillState V m calls).maxSize := by
        show ¬((keysIdx calls 0).length : Int) ≥ m
        rw [length_keysIdx]
        omega
      rw [Set_new_noevict hfind hcap]
      show InMemoryCache.mk m ((s.key, calls.length) :: keysIdx calls 0)
          (calls.length :: (List.range calls.length).reverse)
          (heapSet (heapIdx calls 0) calls.length ⟨s.key, s.value, s.now + s.ttl⟩)
          (calls.length + 1) = fillState V m (calls ++ [s])
      unfold fillState
      rw [keysIdx_concat, heapIdx_concat]
      simp [heapSet, List.range_succ]

/-- C2: with capacity N and N+1 `Set` calls with pairwise-distinct keys and no
intervening `Get` or `Delete` on a fresh cache (N = 1 + the number of middle
calls), before the final `Set` the back of the recency list holds the first
call's key, and the final `Set` evicts exactly that first key: afterwards the
first key is gone from the map while every later key is still present. -/
theorem claim_C2_lru_first_evicted {V : Type} [Inhabited V]
    (sfirst slast : SetCall V) (mid : List (SetCall V))
    (hnd : (((sfirst :: mid) ++ [slast]).map SetCall.key).Nodup) :
    ∃ b, (runOps (InMemoryCache.NewInMemoryCache V ((sfirst :: mid).length : Int))
            (setsOf (sfirst :: mid))).lruList.getLast? = some b ∧
      (heapGet (runOps (InMemoryCache.NewInMemoryCache V ((sfirst :: mid).length : Int))
            (setsOf (sfirst :: mid))).heap b).key = sfirst.key ∧
      mapFind (runOps (InMemoryCache.NewInMemoryCache V ((sfirst :: mid).length : Int))
            (setsOf ((sfirst :: mid) ++ [slast]))).cache sfirst.key = none ∧
      ∀ s ∈ mid ++ [slast], ∃ j,
        mapFind (runOps (InMemoryCache.NewInMemoryCache V ((sfirst :: mid).length : Int))
          (setsOf ((sfirst :: mid) ++ [slast]))).cache s.key = some j := by
  have hndsplit := hnd
  rw [List.map_append, List.map_singleton] at hndsplit
  obtain ⟨hndpre, hndlast, hdisj⟩ := List.nodup_append.mp hndsplit
  have hs_last : slast.key ∉ (sfirst :: mid).map SetCall.key :=
    fun hmem => hdisj hmem (List.mem_singleton_self _)
  have hfillN := runOps_fill ((sfirst :: mid).length : Int) (sfirst :: mid) hndpre
    (le_refl _)
  have hgl : (fillState V ((sfirst :: mid).length : Int)
      (sfirst :: mid)).lruList.getLast? = some 0 := by
    show ((List.range (sfirst :: mid).length).reverse).getLast? = some 0
    rw [List.getLast?_reverse]
    show (List.range (mid.length + 1)).head? = some 0
    rw [List.range_succ_eq_map]
    rfl
  have hget0 : heapGet (fillState V ((sfirst :: mid).length : Int)
      (sfirst :: mid)).heap 0 =
      ⟨sfirst.key, sfirst.value, sfirst.now + sfirst.ttl⟩ := by
    show heapGet (heapIdx mid (0 + 1) ++
      [(0, ⟨sfirst.key, sfirst.value, sfirst.now + sfirst.ttl⟩)]) 0 = _
    rw [heapGet_append_of_ne]
    · rw [heapGet, if_pos rfl]
    · intro p hp
      have := heapIdx_lb hp
      omega
  have hkey0 : (heapGet (heapIdx (sfirst :: mid) 0) 0).key = sfirst.key := by
    show (heapGet (fillState V ((sfirst :: mid).length : Int) (sfirst :: mid)).heap 0).key
      = sfirst.key
    rw [hget0]
  have hfin : runOps (InMemoryCache.NewInMemoryCache V ((sfirst :: mid).length : Int))
        (setsOf ((sfirst :: mid) ++ [slast])) =
      (fillState V ((sfirst :: mid).length : Int) (sfirst :: mid)).Set
        slast.now slast.key slast.value slast.ttl := by
    have hsplit : setsOf ((sfirst :: mid) ++ [slast]) =
        setsOf (sfirst :: mid) ++
          [CacheOp.set slast.now slast.key slast.value slast.ttl] := by
      simp [setsOf]
    rw [hsplit]
    have happ : runOps (InMemoryCache.NewInMemoryCache V ((sfirst :: mid).length : Int))
        (setsOf (sfirst :: mid) ++
          [CacheOp.set slast.now slast.key slast.value slast.ttl]) =
        applyOp (runOps (InMemoryCache.NewInMemoryCache V ((sfirst :: mid).length : Int))
          (setsOf (sfirst :: mid)))
          (CacheOp.set slast.now slast.key slast.value slast.ttl) := by
      show List.foldl applyOp _ _ = _
      rw [List.foldl_append]
      rfl
    rw [happ, hfillN]
    rfl
  have hfind2 : mapFind (fillState V ((sfirst :: mid).length : Int)
      (sfirst :: mid)).cache slast.key = none := by
    rw [mapFind_eq_none]
    show slast.key ∉ (keysIdx (sfirst :: mid) 0).map Prod.fst
    rw [keysIdx_map_fst]
    intro hmem
    exact hs_last (List.mem_reverse.mp hmem)
  have hcap2 : ((fillState V ((sfirst :: mid).length : Int)
        (sfirst :: mid)).cache.length : Int) ≥
      (fillState V ((sfirst :: mid).length : Int) (sfirst :: mid)).maxSize := by
    show ((keysIdx (sfirst :: mid) 0).length : Int) ≥ ((sfirst :: mid).length : Int)
    rw [length_keysIdx]
  have hset := Set_new_evict hfind2 hcap2 slast.now slast.value slast.ttl
  have hevict := evict_eq_remove hgl
  have hcache : (runOps (InMemoryCache.NewInMemoryCache V ((sfirst :: mid).length : Int))
        (setsOf ((sfirst :: mid) ++ [slast]))).cache =
      (slast.key, (sfirst :: mid).length) ::
        mapErase (keysIdx (sfirst :: mid) 0) sfirst.key := by
    rw [hfin, hset, hevict]
    show (slast.key, (sfirst :: mid).length) ::
        mapErase (keysIdx (sfirst :: mid) 0)
          ((heapGet (heapIdx (sfirst :: mid) 0) 0).key) = _
    rw [hkey0]
  refine ⟨0, ?_, ?_, ?_, ?_⟩
  · rw [hfillN]
    exact hgl
  · rw [hfillN]
    exact hkey0
  · rw [hcache]
    have hne1 : ¬(slast.key = sfirst.key) := by
      intro he
      refine hs_last ?_
      rw [he]
      exact List.mem_map.mpr ⟨sfirst, List.mem_cons_self _ _, rfl⟩
    rw [mapFind, if_neg hne1]
    exact mapFind_mapErase_self
  · intro s hsmem
    rw [hcache]
    rcases List.mem_append.mp hsmem with hmem | hmem
    · have hskey_pre : s.key ∈ (sfirst :: mid).map SetCall.key :=
        List.mem_map.mpr ⟨s, List.mem_cons_of_mem _ hmem, rfl⟩
      have hne2 : ¬(slast.key = s.key) := by
        intro he
        refine hs_last ?_
        rw [he]
        exact hskey_pre
      have hne3 : s.key ≠ sfirst.key := by
        intro he
        have hnomid : sfirst.key ∉ mid.map SetCall.key := by
          have hx := hndpre
          rw [List.map_cons, List.nodup_cons] at hx
          exact hx.1
        refine hnomid ?_
        rw [← he]
        exact List.mem_map.mpr ⟨s, hmem, rfl⟩
      rw [mapFind, if_neg hne2, mapFind_mapErase_ne hne3]
      cases hfs : mapFind (keysIdx (sfirst :: mid) 0) s.key with
      | some j => exact ⟨j, rfl⟩
      | none =>
          rw [mapFind_eq_none, keysIdx_map_fst] at hfs
          exact absurd (List.mem_reverse.mpr hskey_pre) hfs
    · rw [List.mem_singleton] at hmem
      subst hmem
      exact ⟨(sfirst :: mid).length, by rw [mapFind, if_pos rfl]⟩

theorem claim_C2_witness :
    ∃ b, (runOps (InMemoryCache.NewInMemoryCache Nat 2)
            (setsOf [⟨"k1", 1, 0, 300⟩, ⟨"k2", 2, 0, 300⟩])).lruList.getLast? = some b ∧
      (heapGet (runOps (InMemoryCache.NewInMemoryCache Nat 2)
            (setsOf [⟨"k1", 1, 0, 300⟩, ⟨"k2", 2, 0, 300⟩])).heap b).key = "k1" ∧
      mapFind (runOps (InMemoryCache.NewInMemoryCache Nat 2)
            (setsOf ([⟨"k1", 1, 0, 300⟩, ⟨"k2", 2, 0, 300⟩] ++
              [⟨"k3", 3, 0, 300⟩]))).cache "k1" = none ∧
      ∀ s ∈ [(⟨"k2", 2, 0, 300⟩ : SetCall Nat)] ++ [⟨"k3", 3, 0, 300⟩], ∃ j,
        mapFind (runOps (InMemoryCache.NewInMemoryCache Nat 2)
          (setsOf ([⟨"k1", 1, 0, 300⟩, ⟨"k2", 2, 0, 300⟩] ++
            [⟨"k3", 3, 0, 300⟩]))).cache s.key = some j :=
  claim_C2_lru_first_evicted ⟨"k1", 1, 0, 300⟩ ⟨"k3", 3, 0, 300⟩ [⟨"k2", 2, 0, 300⟩]
    (by decide)

/-! ### The hand-rolled doubly-linked list of `src/unnamed/part_000`

The second in-memory variant implements its own list.  Its `moveToFront` and
`remove` do not type-check as written: they compare the `*entry` argument
with the `*node` head and tail pointers and read `prev`/`next` fields that
the `entry` type does not declare.  The model below is the minimal node-level
reading: the argument denotes the address of the node currently wrapping the
entry, pointer comparisons compare that address, and every dereference of a
nil pointer (a Go runtime panic) is `Except.error ()`. -/

/-- A `node` of part_000 (lines 44-49): prev/next pointers (`none` = nil) and
the entry it wraps, identified by an abstract entry id (the `*entry`
pointer). -/

structure PNode where
  prev : Option Nat
  next : Option Nat
  entr : Nat
  deriving Repr, DecidableEq

/-- The `list` of part_000 (lines 37-42) together with the node memory:
`head`/`tail` are node pointers, `nodes` maps each allocated address to its
node, `fresh` is the next fresh address. -/
structure GoList where
  head : Option Nat
  tail : Option Nat
  size : Int
  nodes : List (Nat × PNode)
  fresh : Nat
  deriving Repr, DecidableEq

/-- Memory read through a node pointer. -/
def nodeGet (ns : List (Nat × PNode)) (a : Nat) : PNode :=
  match ns with
  | [] => ⟨none, none, 0⟩
  | (b, n) :: rest => if b = a then n else nodeGet rest a

/-- Memory write through a node pointer (shadowing binding). -/
def nodeSet (ns : List (Nat × PNode)) (a : Nat) (n : PNode) : List (Nat × PNode) :=
  (a, n) :: ns

/-- `pushFront` of part_000 (lines 159-170): allocate a node for the entry;
an empty list gets it as head and tail, otherwise it is linked before the old
head. -/
def pushFront (l : GoList) (e : Nat) : GoList :=
  let a := l.fresh
  let nd : PNode := { prev := none, next := none, entr := e }
  match l.head with
  | none =>
      { l with head := some a, tail := some a,
               nodes := nodeSet l.nodes a nd, fresh := a + 1, size := l.size + 1 }
  | some h =>
      let ns1 := nodeSet l.nodes a { nd with next := some h }
      let ns2 := nodeSet ns1 h { nodeGet ns1 h with prev := some a }
      { l with head := some a, nodes := ns2, fresh := a + 1, size := l.size + 1 }

/-- `moveToFront` of part_000 (lines 173-188), node-level reading.  The
source first allocates a brand-new wrapper node (`node := &node\x7bentr: ent\x7d`),
returns if the argument is the head, unlinks the argument from tail or
interior position, and then links the FRESH node (not the argument's node) in
front of the old head. -/
def moveToFront (l : GoList) (a : Nat) : Except Unit GoList :=
  let m := l.fresh
  let l0 : GoList := { l with
    nodes := nodeSet l.nodes m ⟨none, none, (nodeGet l.nodes a).entr⟩,
    fresh := m + 1 }
  if l0.head = some a then Except.ok l0
  else
    let step1 : Except Unit GoList :=
      if l0.tail = some a then
        match (nodeGet l0.nodes a).prev with
        | none => Except.error ()
        | some p =>
            Except.ok { l0 with
              tail := some p,
              nodes := nodeSet l0.nodes p { nodeGet l0.nodes p with next := none } }
      else
        match (nodeGet l0.nodes a).prev, (nodeGet l0.nodes a).next with
        | some p, some nx =>
            let nsa := nodeSet l0.nodes p { nodeGet l0.nodes p with next := some nx }
            Except.ok { l0 with
              nodes := nodeSet nsa nx { nodeGet nsa nx with prev := some p } }
        | _, _ => Except.error ()
    match step1 with
    | Except.error u => Except.error u
    | Except.ok l1 =>
        match l1.head with
        | none => Except.error ()
        | some h =>
            let ns1 := nodeSet l1.nodes m { nodeGet l1.nodes m with next := some h }
            let ns2 := nodeSet ns1 h { nodeGet ns1 h with prev := some m }
            Except.ok { l1 with head := some m, nodes := ns2 }

/-- `back` of part_000 (lines 207-209): `return l.tail.entr` with no nil
check, so an empty list dereferences the nil tail pointer. -/
def back (l : GoList) : Except Unit Nat :=
  match l.tail with
  | none => Except.error ()
  | some a => Except.ok (nodeGet l.nodes a).entr

/-- The chain of node addresses reachable from a pointer by `next` links,
with fuel bounded by the number of allocated nodes. -/
def chainFrom (ns : List (Nat × PNode)) : Option Nat → Nat → List Nat
  | _, 0 => []
  | none, _ => []
  | some a, Nat.succ fuel => a :: chainFrom ns (nodeGet ns a).next fuel

/-- The node addresses of the list, front to back. -/
def chain (l : GoList) : List Nat := chainFrom l.nodes l.head l.nodes.length

/-- C6: `back()` is claimed total, returning the least-recently-used entry
when non-empty and none when empty.  The code of part_000 dereferences the
nil tail pointer on the empty list (modelled as `Except.error ()`), even
though its caller `evict` checks the result against nil; on a non-empty list
it does return the tail entry. -/
theorem claim_C6_back_empty_nil_deref :
    back ⟨none, none, 0, [], 0⟩ = Except.error () ∧
    back (pushFront ⟨none, none, 0, [], 0⟩ 7) = Except.ok 7 :=
  ⟨rfl, rfl⟩

/-- C5: `move_to_front` is claimed to reposition exactly the given entry by a
conventional splice-and-reinsert.  Evaluating the (node-level reading of the)
code on the failing input: a two-entry list with entry 10 in node 0 (tail)
and entry 20 in node 1 (head); moving entry 10 relinks a FRESHLY allocated
node 2 wrapping entry 10 to the front and leaves node 0 dangling: afterwards
the chain is `[2, 1]`, its head is the fresh address 2, and the entry's
original node 0 is no longer linked. -/
theorem claim_C5_move_allocates_fresh_node :
    (pushFront (pushFront ⟨none, none, 0, [], 0⟩ 10) 20).head = some 1 ∧
    (pushFront (pushFront ⟨none, none, 0, [], 0⟩ 10) 20).tail = some 0 ∧
    (nodeGet (pushFront (pushFront ⟨none, none, 0, [], 0⟩ 10) 20).nodes 0).entr = 10 ∧
    ((moveToFront (pushFront (pushFront ⟨none, none, 0, [], 0⟩ 10) 20) 0).toOption.map
        (fun l => (l.head, chain l, (nodeGet l.nodes 2).entr))) =
      some (some 2, [2, 1], 10) ∧
    0 ∉ [2, 1] :=
  ⟨rfl, rfl, rfl, by decide, by decide⟩
